import Mathlib

/-!
Verification development for the multi-objective optimization notebook
(`Completed_Setting_up_the_algorithms.ipynb`): shallow embedding of the
custom `MOPSO` and `MODE` algorithm classes and proofs about their
variation, personal/global-best update, and survival-selection steps.

Real numbers of the source are modelled by `ℚ`; objective values, which
the source stores as IEEE floats and compares with `<=` / `<`, are
modelled by `FVal` (a rational, `NaN`, or a signed infinity) with the
IEEE comparison semantics (`NaN` compares false against everything).
Randomness (`np.random.*`) is modelled by explicit parameters carrying
the drawn values, constrained to the support of the corresponding numpy
distribution, except in the determinism development where it is an
explicit sequentially-consumed deterministic stream.
-/

/-- An IEEE-float objective value: finite rational, NaN, or ±∞. -/
inductive FVal where
  | nan : FVal
  | inf : FVal
  | ninf : FVal
  | fin : ℚ → FVal
  deriving DecidableEq

/-- IEEE `<=` on objective values: any comparison with NaN is false. -/
def fle : FVal → FVal → Bool
  | FVal.nan, _ => false
  | _, FVal.nan => false
  | FVal.ninf, _ => true
  | _, FVal.inf => true
  | FVal.inf, _ => false
  | FVal.fin _, FVal.ninf => false
  | FVal.fin a, FVal.fin b => a ≤ b

/-- IEEE `<` on objective values: any comparison with NaN is false. -/
def flt : FVal → FVal → Bool
  | FVal.nan, _ => false
  | _, FVal.nan => false
  | FVal.inf, _ => false
  | FVal.ninf, FVal.ninf => false
  | FVal.ninf, _ => true
  | FVal.fin _, FVal.inf => true
  | FVal.fin _, FVal.ninf => false
  | FVal.fin a, FVal.fin b => a < b

/-- Embeds `MOPSO.dominate` on objective vectors:
`np.all(a.F <= b.F) and np.any(a.F < b.F)` (elementwise IEEE comparisons). -/
def dominateF (a b : List FVal) : Bool :=
  (List.zipWith fle a b).all id && (List.zipWith flt a b).any id

/-- A candidate pairs its decision vector `X` with its objective vector `F`
(the two arrays pymoo's `Population` carries for each individual). -/
structure Cand where
  X : List ℚ
  F : List FVal
  deriving DecidableEq

/-- Embeds `MOPSO.dominate(a, b)` on candidates. -/
def dominate (a b : Cand) : Bool :=
  dominateF a.F b.F

/-- Index `i` is dominated by some member of the objective matrix `Fm`.
Modelled from the spec: the domination count of §4.1 is nonzero.  (Checking
`j = i` is unnecessary: domination is irreflexive, see `dominateF_self`.) -/
def dominatedBy (Fm : List (List FVal)) (i : Nat) : Bool :=
  (List.range Fm.length).any (fun j => dominateF (Fm.getD j []) (Fm.getD i []))

/-- Modelled from the spec: front 0 of pymoo's `NonDominatedSorting`
(`only_non_dominated_front=True`), used by `MOPSO.non_dominated` — the
indices with domination count zero (spec §4.1). -/
def front0 (Fm : List (List FVal)) : List Nat :=
  (List.range Fm.length).filter (fun i => !dominatedBy Fm i)

/-- Embeds `np.clip(x, lo, hi)` = `np.minimum(hi, np.maximum(x, lo))`. -/
def clip (lo hi x : ℚ) : ℚ :=
  min hi (max lo x)

/-! ### Basic lemmas about the IEEE comparisons and domination -/

lemma flt_irrefl (x : FVal) : flt x x = false := by
  cases x <;> simp [flt]

lemma fle_trans {x y z : FVal} (h1 : fle x y = true) (h2 : fle y z = true) :
    fle x z = true := by
  cases x <;> cases y <;> cases z <;>
    simp_all [fle] <;> exact le_trans h1 h2

lemma flt_of_flt_of_fle {x y z : FVal} (h1 : flt x y = true) (h2 : fle y z = true) :
    flt x z = true := by
  cases x <;> cases y <;> cases z <;>
    simp_all [flt, fle] <;> exact lt_of_lt_of_le h1 h2

lemma fle_nan_left (x : FVal) : fle FVal.nan x = false := by
  cases x <;> simp [fle]

lemma fle_nan_right (x : FVal) : fle x FVal.nan = false := by
  cases x <;> simp [fle]

lemma dominateF_self (a : List FVal) : dominateF a a = false := by
  have h : (List.zipWith flt a a).any id = false := by
    induction a with
    | nil => rfl
    | cons x t ih => simp [List.zipWith, flt_irrefl, ih]
  simp only [dominateF, h, Bool.and_false]

/-- Characterisation of domination for equal-length vectors. -/
lemma dominateF_iff {m : Nat} {a b : List FVal}
    (ha : a.length = m) (hb : b.length = m) :
    dominateF a b = true ↔
      ((∀ t, t < m → fle (a.getD t FVal.nan) (b.getD t FVal.nan) = true) ∧
       (∃ t, t < m ∧ flt (a.getD t FVal.nan) (b.getD t FVal.nan) = true)) := by
  have hlen : (List.zipWith fle a b).length = m := by
    simp [List.length_zipWith, ha, hb]
  have hlen2 : (List.zipWith flt a b).length = m := by
    simp [List.length_zipWith, ha, hb]
  constructor
  · intro h
    rw [dominateF, Bool.and_eq_true] at h
    rcases h with ⟨hall, hany⟩
    constructor
    · intro t ht
      have htlen : t < (List.zipWith fle a b).length := by omega
      have hmem := List.all_eq_true.mp hall _ (List.get_mem _ t htlen)
      rw [id_eq, List.get_eq_getElem, List.getElem_zipWith] at hmem
      rw [List.getD_eq_getElem a FVal.nan (by omega),
        List.getD_eq_getElem b FVal.nan (by omega)]
      exact hmem
    · rcases List.any_eq_true.mp hany with ⟨v, hv, hid⟩
      rcases List.mem_iff_getElem.mp hv with ⟨t, ht, hval⟩
      refine ⟨t, by omega, ?_⟩
      rw [List.getElem_zipWith] at hval
      rw [List.getD_eq_getElem a FVal.nan (by omega),
        List.getD_eq_getElem b FVal.nan (by omega)]
      rw [hval]
      rw [id_eq] at hid
      exact hid
  · rintro ⟨hall, t, ht, hstrict⟩
    rw [dominateF, Bool.and_eq_true]
    constructor
    · apply List.all_eq_true.mpr
      intro v hv
      rcases List.mem_iff_getElem.mp hv with ⟨u, hu, hval⟩
      rw [List.getElem_zipWith] at hval
      have hu2 := hall u (by omega)
      rw [List.getD_eq_getElem a FVal.nan (by omega),
        List.getD_eq_getElem b FVal.nan (by omega)] at hu2
      rw [id_eq, ← hval]
      exact hu2
    · apply List.any_eq_true.mpr
      refine ⟨flt (a.getD t FVal.nan) (b.getD t FVal.nan), ?_, hstrict⟩
      apply List.mem_iff_getElem.mpr
      refine ⟨t, by omega, ?_⟩
      rw [List.getElem_zipWith,
        List.getD_eq_getElem a FVal.nan (by omega),
        List.getD_eq_getElem b FVal.nan (by omega)]

/-- Domination is transitive on equal-length vectors. -/
lemma dominateF_trans {m : Nat} {a b c : List FVal}
    (ha : a.length = m) (hb : b.length = m) (hc : c.length = m)
    (h1 : dominateF a b = true) (h2 : dominateF b c = true) :
    dominateF a c = true := by
  rcases (dominateF_iff ha hb).mp h1 with ⟨hall1, t, ht, hstrict⟩
  rcases (dominateF_iff hb hc).mp h2 with ⟨hall2, _⟩
  apply (dominateF_iff ha hc).mpr
  exact ⟨fun u hu => fle_trans (hall1 u hu) (hall2 u hu),
    t, ht, flt_of_flt_of_fle hstrict (hall2 t ht)⟩

/-- Any nonempty list carrying an irreflexive, transitive relation has a
member that no member of the list relates to (a maximal element). -/
lemma exists_unrelated {α : Type} (R : α → α → Prop) :
    ∀ (l : List α), l ≠ [] → (∀ a ∈ l, ¬ R a a) →
      (∀ a ∈ l, ∀ b ∈ l, ∀ c ∈ l, R a b → R b c → R a c) →
      ∃ a ∈ l, ∀ b ∈ l, ¬ R b a := by
  intro l
  induction l with
  | nil => intro h; exact absurd rfl h
  | cons x xs ih =>
    intro _ hirr htrans
    by_cases hxs : xs = []
    · subst hxs
      refine ⟨x, List.mem_cons_self x [], ?_⟩
      intro b hb
      rcases List.mem_singleton.mp hb with rfl
      exact hirr b (List.mem_cons_self b [])
    · have hirr2 : ∀ a ∈ xs, ¬ R a a := fun a ha => hirr a (List.mem_cons_of_mem x ha)
      have htrans2 : ∀ a ∈ xs, ∀ b ∈ xs, ∀ c ∈ xs, R a b → R b c → R a c :=
        fun a ha b hb c hc =>
          htrans a (List.mem_cons_of_mem x ha) b (List.mem_cons_of_mem x hb)
            c (List.mem_cons_of_mem x hc)
      rcases ih hxs hirr2 htrans2 with ⟨m, hm, hmax⟩
      by_cases hRxm : R x m
      · refine ⟨x, List.mem_cons_self x xs, ?_⟩
        intro b hb hRbx
        rcases List.mem_cons.mp hb with rfl | hbxs
        · exact hirr b (List.mem_cons_self b xs) hRbx
        · exact hmax b hbxs
            (htrans b (List.mem_cons_of_mem x hbxs) x (List.mem_cons_self x xs)
              m (List.mem_cons_of_mem x hm) hRbx hRxm)
      · refine ⟨m, List.mem_cons_of_mem x hm, ?_⟩
        intro b hb hRbm
        rcases List.mem_cons.mp hb with rfl | hbxs
        · exact hRxm hRbm
        · exact hmax b hbxs hRbm

/-- Rows of an objective matrix obtained through `getD` at in-range indices
are members of the matrix. -/
lemma getD_row_mem {Fm : List (List FVal)} {i : Nat} (hi : i < Fm.length) :
    Fm.getD i [] ∈ Fm := by
  rw [List.getD_eq_getElem Fm [] hi]
  exact List.getElem_mem hi

/-- Membership in `front0` unfolded. -/
lemma mem_front0_iff {Fm : List (List FVal)} {i : Nat} :
    i ∈ front0 Fm ↔ i < Fm.length ∧ dominatedBy Fm i = false := by
  simp [front0, List.mem_filter, List.mem_range]

/-- The non-dominated front of a nonempty objective matrix with rows of a
common length is nonempty (the selection guard `len(non_dominated) > 0` in
`MOPSO._advance` is always taken). -/
lemma front0_ne_nil {m : Nat} (Fm : List (List FVal)) (hne : Fm ≠ [])
    (hm : ∀ r ∈ Fm, r.length = m) : front0 Fm ≠ [] := by
  have hlen : Fm.length ≠ 0 := fun h => hne (List.eq_nil_of_length_eq_zero h)
  have hrange : List.range Fm.length ≠ [] := by
    intro h
    have := List.length_range Fm.length
    rw [h] at this
    simp at this
    exact hlen this.symm
  have hirr : ∀ a ∈ List.range Fm.length,
      ¬ (dominateF (Fm.getD a []) (Fm.getD a []) = true) := by
    intro a _ h
    rw [dominateF_self] at h
    exact Bool.false_ne_true h
  have htrans : ∀ a ∈ List.range Fm.length, ∀ b ∈ List.range Fm.length,
      ∀ c ∈ List.range Fm.length,
      dominateF (Fm.getD a []) (Fm.getD b []) = true →
      dominateF (Fm.getD b []) (Fm.getD c []) = true →
      dominateF (Fm.getD a []) (Fm.getD c []) = true := by
    intro a ha b hb c hc h1 h2
    exact dominateF_trans (m := m)
      (hm _ (getD_row_mem (List.mem_range.mp ha)))
      (hm _ (getD_row_mem (List.mem_range.mp hb)))
      (hm _ (getD_row_mem (List.mem_range.mp hc))) h1 h2
  rcases exists_unrelated (fun a b => dominateF (Fm.getD a []) (Fm.getD b []) = true)
      (List.range Fm.length) hrange hirr htrans with ⟨i, hi, hmax⟩
  intro hempty
  have himem : i ∈ front0 Fm := by
    apply mem_front0_iff.mpr
    refine ⟨List.mem_range.mp hi, ?_⟩
    rw [← Bool.not_eq_true]
    intro hdom
    rcases List.any_eq_true.mp hdom with ⟨j, hj, hdj⟩
    exact hmax j hj hdj
  rw [hempty] at himem
  exact List.not_mem_nil i himem

/-! ### MOPSO: variation, personal/global best (notebook cell defining `MOPSO`) -/

/-- Embeds the velocity assignment of `MOPSO._infill`:
`self.velocities = self.w * self.velocities + self.c1 * r1 * (self.pbest.get("X") - X)
+ self.c2 * r2 * (self.gbest.get("X") - X)`, elementwise on the
`(pop_size, n_var)` matrices, with `gbest` broadcast over the rows. -/
def mopsoVelUpdate (w c1 c2 : ℚ) (vel X pbX : List (List ℚ)) (gbX : List ℚ)
    (r1 r2 : List (List ℚ)) (popSize nVar : Nat) : List (List ℚ) :=
  (List.range popSize).map (fun i => (List.range nVar).map (fun k =>
    w * ((vel.getD i []).getD k 0) +
      c1 * ((r1.getD i []).getD k 0) * ((pbX.getD i []).getD k 0 - (X.getD i []).getD k 0) +
      c2 * ((r2.getD i []).getD k 0) * (gbX.getD k 0 - (X.getD i []).getD k 0)))

/-- Embeds the position update of `MOPSO._infill`:
`X = X + self.velocities; X = np.clip(X, self.problem.xl, self.problem.xu)`. -/
def mopsoInfill (w c1 c2 : ℚ) (xl xu : List ℚ) (vel X pbX : List (List ℚ))
    (gbX : List ℚ) (r1 r2 : List (List ℚ)) (popSize nVar : Nat) : List (List ℚ) :=
  (List.range popSize).map (fun i => (List.range nVar).map (fun k =>
    clip (xl.getD k 0) (xu.getD k 0)
      ((X.getD i []).getD k 0 +
        (((mopsoVelUpdate w c1 c2 vel X pbX gbX r1 r2 popSize nVar).getD i []).getD k 0))))

/-- Embeds the personal-best loop of `MOPSO._advance`:
`for i in range(self.pop_size): if self.dominate(self.pop[i], self.pbest[i]):
self.pbest[i] = self.pop[i]`. -/
def updatePbest (pop pbest : List Cand) : List Cand :=
  List.zipWith (fun p q => if dominate p q then p else q) pop pbest

/-- Embeds `MOPSO._advance`: update the personal bests from the evaluated
infills, then resample the global best from the non-dominated front of the
personal bests (`non_dominated[np.random.randint(len(non_dominated))]`);
`r` carries the `randint` draw. -/
def mopsoAdvance (pop pbest : List Cand) (gbest : Cand) (r : Nat) : List Cand × Cand :=
  let pb := updatePbest pop pbest
  let nd := front0 (pb.map Cand.F)
  (pb, if 0 < nd.length then pb.getD (nd.getD (r % nd.length) 0) gbest else gbest)

/-- Embeds `MOPSO._initialize_advance`: zero velocities, personal bests a
copy of the initial population, global best `self.pop[np.random.randint(self.pop_size)]`
(`r` carries the `randint` draw over the whole population). -/
def mopsoInitAdvance (infills : List Cand) (popSize nVar : Nat) (r : Nat) :
    List (List ℚ) × List Cand × Cand :=
  (List.replicate popSize (List.replicate nVar (0 : ℚ)),
   infills,
   infills.getD (r % popSize) ⟨[], []⟩)

/-! ### MODE: differential-evolution variation and survival selection -/

/-- The support of `np.random.choice(n, 3, replace=False)`: three pairwise
distinct indices below `n` (the target index is not excluded). -/
def choiceOK (n : Nat) (t : Nat × Nat × Nat) : Prop :=
  t.1 < n ∧ t.2.1 < n ∧ t.2.2 < n ∧ t.1 ≠ t.2.1 ∧ t.1 ≠ t.2.2 ∧ t.2.1 ≠ t.2.2

instance (n : Nat) (t : Nat × Nat × Nat) : Decidable (choiceOK n t) := by
  unfold choiceOK
  infer_instance

/-- Embeds the trial vector of `MODE._infill`: `v = X[a] + self.F * (X[b] - X[c])`. -/
def vTrial (X : List (List ℚ)) (F : ℚ) (a b c : Nat) (nVar : Nat) : List ℚ :=
  (List.range nVar).map (fun k =>
    (X.getD a []).getD k 0 + F * ((X.getD b []).getD k 0 - (X.getD c []).getD k 0))

/-- Embeds the binomial-crossover loop of `MODE._infill`:
`off[i, k] = v[k] if np.random.random() < self.CR or k == j else X[i, k]`;
`u k` carries the per-dimension `np.random.random()` draw. -/
def crossRow (X : List (List ℚ)) (CR : ℚ) (i j : Nat) (u : Nat → ℚ)
    (v : List ℚ) (nVar : Nat) : List ℚ :=
  (List.range nVar).map (fun k =>
    if u k < CR ∨ k = j then v.getD k 0 else (X.getD i []).getD k 0)

/-- Embeds `np.clip(row, xl, xu)` on one row. -/
def clipRow (xl xu row : List ℚ) : List ℚ :=
  (List.range row.length).map (fun k =>
    clip (xl.getD k 0) (xu.getD k 0) (row.getD k 0))

/-- Embeds `MODE._infill`: for each target `i`, donor indices `abc i`
(drawn by `np.random.choice(self.pop_size, 3, replace=False)`), the
guaranteed crossover dimension `jdim i` (`np.random.randint(self.problem.n_var)`),
per-dimension crossover draws `u i`, and final clipping into bounds. -/
def modeInfill (X : List (List ℚ)) (F CR : ℚ) (xl xu : List ℚ)
    (abc : Nat → Nat × Nat × Nat) (jdim : Nat → Nat) (u : Nat → Nat → ℚ)
    (popSize nVar : Nat) : List (List ℚ) :=
  (List.range popSize).map (fun i =>
    clipRow xl xu
      (crossRow X CR i (jdim i) (u i)
        (vTrial X F (abc i).1 (abc i).2.1 (abc i).2.2 nVar) nVar))

/-- Embeds the selection loop of `MODE._advance` over the fronts produced
by `NonDominatedSorting().do(F)`: whole fronts are appended while they fit,
and the first front that would overflow is truncated by
`np.random.choice(front, remaining, replace=False)` (modelled by `sel`),
after which the loop breaks. -/
def modeAdvance (popSize : Nat) (sel : List Nat → Nat → List Nat) :
    List (List Nat) → List Nat → List Nat
  | [], next => next
  | f :: fs, next =>
    if next.length + f.length ≤ popSize then
      modeAdvance popSize sel fs (next ++ f)
    else
      next ++ sel f (popSize - next.length)

/-- A selection oracle is adequate for `np.random.choice(front, r, replace=False)`
when, for a duplicate-free front and a feasible request, it returns `r`
pairwise-distinct members of the front. -/
def selOK (sel : List Nat → Nat → List Nat) : Prop :=
  ∀ f r, f.Nodup → r ≤ f.length →
    (sel f r).length = r ∧ (sel f r).Nodup ∧ ∀ x ∈ sel f r, x ∈ f

/-- Modelled from the spec: survival selection as §4.2/§7 demand it, with
the underfilled case (`pool size < pop_size`) signalled distinctly from the
success case; the payload in either case is what the code computes.  The
source `MODE._advance` has no such distinct signal — this definition exists
to be compared against the code's behavior. -/
def modeAdvanceSignal (popSize : Nat) (sel : List Nat → Nat → List Nat)
    (fronts : List (List Nat)) : Except (List Nat) (List Nat) :=
  if (fronts.map List.length).sum < popSize then
    Except.error (modeAdvance popSize sel fronts [])
  else
    Except.ok (modeAdvance popSize sel fronts [])

/-! ### Helper lemmas -/

lemma getD_map_range {β : Type} (f : Nat → β) {n i : Nat} (d : β) (h : i < n) :
    ((List.range n).map f).getD i d = f i := by
  rw [List.getD_eq_getElem _ d (by simpa using h), List.getElem_map, List.getElem_range]

lemma clip_bounds {lo hi x : ℚ} (h : lo ≤ hi) :
    lo ≤ clip lo hi x ∧ clip lo hi x ≤ hi :=
  ⟨le_min h (le_max_left lo x), min_le_left hi _⟩

lemma updatePbest_length (pop pbest : List Cand) :
    (updatePbest pop pbest).length = min pop.length pbest.length := by
  simp [updatePbest, List.length_zipWith]

lemma updatePbest_getD {pop pbest : List Cand} {i : Nat} (d : Cand)
    (hlen : pop.length = pbest.length) (hi : i < pbest.length) :
    (updatePbest pop pbest).getD i d =
      if dominate (pop.getD i d) (pbest.getD i d) then pop.getD i d
      else pbest.getD i d := by
  have hzip : i < (updatePbest pop pbest).length := by
    rw [updatePbest_length]; omega
  rw [List.getD_eq_getElem _ d hzip]
  rw [List.getD_eq_getElem pop d (by omega), List.getD_eq_getElem pbest d (by omega)]
  simp [updatePbest, List.getElem_zipWith]

lemma modeAdvance_length_le {popSize : Nat} {sel : List Nat → Nat → List Nat}
    (hsel : selOK sel) :
    ∀ (fronts : List (List Nat)) (acc : List Nat), (∀ f ∈ fronts, f.Nodup) →
      acc.length ≤ popSize → (modeAdvance popSize sel fronts acc).length ≤ popSize := by
  intro fronts
  induction fronts with
  | nil => intro acc _ hacc; exact hacc
  | cons f fs ih =>
    intro acc hnd hacc
    rw [modeAdvance]
    by_cases hfit : acc.length + f.length ≤ popSize
    · rw [if_pos hfit]
      exact ih (acc ++ f) (fun g hg => hnd g (List.mem_cons_of_mem f hg))
        (by rw [List.length_append]; omega)
    · rw [if_neg hfit]
      have hr : popSize - acc.length ≤ f.length := by omega
      have hlen := (hsel f (popSize - acc.length)
        (hnd f (List.mem_cons_self f fs)) hr).1
      rw [List.length_append, hlen]
      omega

lemma modeAdvance_length_eq {popSize : Nat} {sel : List Nat → Nat → List Nat}
    (hsel : selOK sel) :
    ∀ (fronts : List (List Nat)) (acc : List Nat), (∀ f ∈ fronts, f.Nodup) →
      acc.length ≤ popSize →
      popSize ≤ acc.length + (fronts.map List.length).sum →
      (modeAdvance popSize sel fronts acc).length = popSize := by
  intro fronts
  induction fronts with
  | nil =>
    intro acc _ hacc hsum
    simp only [List.map_nil, List.sum_nil] at hsum
    rw [modeAdvance]
    omega
  | cons f fs ih =>
    intro acc hnd hacc hsum
    rw [modeAdvance]
    by_cases hfit : acc.length + f.length ≤ popSize
    · rw [if_pos hfit]
      refine ih (acc ++ f) (fun g hg => hnd g (List.mem_cons_of_mem f hg))
        (by rw [List.length_append]; omega) ?_
      rw [List.length_append]
      simp only [List.map_cons, List.sum_cons] at hsum
      omega
    · rw [if_neg hfit]
      have hr : popSize - acc.length ≤ f.length := by omega
      have hlen := (hsel f (popSize - acc.length)
        (hnd f (List.mem_cons_self f fs)) hr).1
      rw [List.length_append, hlen]
      omega

lemma modeAdvance_nodup {popSize : Nat} {sel : List Nat → Nat → List Nat}
    (hsel : selOK sel) :
    ∀ (fronts : List (List Nat)) (acc : List Nat), (∀ f ∈ fronts, f.Nodup) →
      List.Pairwise (fun f g => ∀ x ∈ f, x ∉ g) fronts →
      acc.Nodup → (∀ f ∈ fronts, ∀ x ∈ f, x ∉ acc) →
      acc.length ≤ popSize →
      (modeAdvance popSize sel fronts acc).Nodup := by
  intro fronts
  induction fronts with
  | nil => intro acc _ _ hacc _ _; exact hacc
  | cons f fs ih =>
    intro acc hnd hdisj hacc hout hlen
    rw [modeAdvance]
    rcases List.pairwise_cons.mp hdisj with ⟨hfd, hfsd⟩
    by_cases hfit : acc.length + f.length ≤ popSize
    · rw [if_pos hfit]
      refine ih (acc ++ f) (fun g hg => hnd g (List.mem_cons_of_mem f hg)) hfsd
        (List.Nodup.append hacc (hnd f (List.mem_cons_self f fs))
          (fun x hx hxf => hout f (List.mem_cons_self f fs) x hxf hx)) ?_
        (by rw [List.length_append]; omega)
      intro g hg x hx hmem
      rcases List.mem_append.mp hmem with hxa | hxf
      · exact hout g (List.mem_cons_of_mem f hg) x hx hxa
      · exact hfd g hg x hxf hx
    · rw [if_neg hfit]
      have hr : popSize - acc.length ≤ f.length := by omega
      rcases hsel f (popSize - acc.length) (hnd f (List.mem_cons_self f fs)) hr
        with ⟨_, hsnd, hsub⟩
      exact List.Nodup.append hacc hsnd
        (fun x hx hxs => hout f (List.mem_cons_self f fs) x (hsub x hxs) hx)

lemma modeAdvance_structure {popSize : Nat} {sel : List Nat → Nat → List Nat}
    (hsel : selOK sel) :
    ∀ (fronts : List (List Nat)) (acc : List Nat), (∀ f ∈ fronts, f.Nodup) →
      acc.length ≤ popSize →
      ∃ k rest, k ≤ fronts.length ∧
        modeAdvance popSize sel fronts acc = acc ++ (fronts.take k).flatten ++ rest ∧
        (rest = [] ∨ ∀ x ∈ rest, x ∈ fronts.getD k []) := by
  intro fronts
  induction fronts with
  | nil =>
    intro acc _ _
    exact ⟨0, [], le_refl 0, by simp [modeAdvance], Or.inl rfl⟩
  | cons f fs ih =>
    intro acc hnd hacc
    rw [modeAdvance]
    by_cases hfit : acc.length + f.length ≤ popSize
    · rw [if_pos hfit]
      rcases ih (acc ++ f) (fun g hg => hnd g (List.mem_cons_of_mem f hg))
        (by rw [List.length_append]; omega) with ⟨k, rest, hk, heq, hrest⟩
      refine ⟨k + 1, rest, by simpa using hk, ?_, ?_⟩
      · rw [heq]
        simp [List.flatten, List.append_assoc]
      · rcases hrest with h | h
        · exact Or.inl h
        · exact Or.inr (by simpa using h)
    · rw [if_neg hfit]
      have hr : popSize - acc.length ≤ f.length := by omega
      rcases hsel f (popSize - acc.length) (hnd f (List.mem_cons_self f fs)) hr
        with ⟨_, _, hsub⟩
      refine ⟨0, sel f (popSize - acc.length), Nat.zero_le _, by simp, Or.inr ?_⟩
      intro x hx
      simpa using hsub x hx

lemma modeAdvance_all (popSize : Nat) (sel : List Nat → Nat → List Nat) :
    ∀ (fronts : List (List Nat)) (acc : List Nat),
      acc.length + (fronts.map List.length).sum ≤ popSize →
      modeAdvance popSize sel fronts acc = acc ++ fronts.flatten := by
  intro fronts
  induction fronts with
  | nil => intro acc _; simp [modeAdvance]
  | cons f fs ih =>
    intro acc hsum
    simp only [List.map_cons, List.sum_cons] at hsum
    rw [modeAdvance, if_pos (by omega)]
    rw [ih (acc ++ f) (by rw [List.length_append]; omega)]
    simp [List.flatten, List.append_assoc]

/-! ### The optimization driver with an explicit random stream (determinism) -/

/-- Modelled from the spec (§5, §9): the single seedable sequentially-consumed
random stream (numpy's global generator, seeded by pymoo's `minimize(..., seed=...)`);
a linear congruential step stands in for MT19937. -/
def rngNext (s : Nat) : Nat :=
  (s * 1103515245 + 12345) % 2147483648

/-- Draw a natural below `n` (`np.random.randint(n)`): value and next state. -/
def randBelow (n s : Nat) : Nat × Nat :=
  (rngNext s % n, rngNext s)

/-- Draw a rational in `[0,1)` (`np.random.random()`): value and next state. -/
def randUnit (s : Nat) : ℚ × Nat :=
  ((rngNext s % 1000 : ℚ) / 1000, rngNext s)

/-- Modelled from the spec: `np.random.choice(n, 3, replace=False)` drawn
sequentially from the stream (skip-remapping scheme for without-replacement). -/
def choose3 (n s : Nat) : (Nat × Nat × Nat) × Nat :=
  let p1 := randBelow n s
  let p2 := randBelow (n - 1) p1.2
  let b := if p2.1 < p1.1 then p2.1 else p2.1 + 1
  let p3 := randBelow (n - 2) p2.2
  let c0 := if p3.1 < min p1.1 b then p3.1 else p3.1 + 1
  let c := if c0 < max p1.1 b then c0 else c0 + 1
  ((p1.1, b, c), p3.2)

/-- One row of `MODE._infill` with all draws taken from the stream in source
order: donor triple, guaranteed dimension, then one crossover draw per
dimension. -/
def modeInfillRowRng (X : List (List ℚ)) (F CR : ℚ) (n nVar i s : Nat) :
    List ℚ × Nat :=
  let pabc := choose3 n s
  let pj := randBelow nVar pabc.2
  let v := vTrial X F pabc.1.1 pabc.1.2.1 pabc.1.2.2 nVar
  (List.range nVar).foldl (fun st k =>
      let pu := randUnit st.2
      (st.1 ++ [if pu.1 < CR ∨ k = pj.1 then v.getD k 0 else (X.getD i []).getD k 0],
        pu.2))
    ([], pj.2)

/-- `MODE._infill` with the stream threaded through the target loop. -/
def modeInfillRng (X : List (List ℚ)) (F CR : ℚ) (xl xu : List ℚ)
    (popSize nVar s : Nat) : List (List ℚ) × Nat :=
  (List.range popSize).foldl (fun st i =>
      let pr := modeInfillRowRng X F CR popSize nVar i st.2
      (st.1 ++ [clipRow xl xu pr.1], pr.2))
    ([], s)

/-- Front 0 restricted to a set of surviving indices (one peeling step). -/
def front0On (Fm : List (List FVal)) (idxs : List Nat) : List Nat :=
  idxs.filter (fun i => !(idxs.any (fun j => dominateF (Fm.getD j []) (Fm.getD i []))))

/-- Modelled from the spec: the iterative peeling of §4.1 producing the full
ranking of pymoo's `NonDominatedSorting().do(F)`; the fuel argument bounds
the number of fronts by the number of candidates. -/
def peelFronts (Fm : List (List FVal)) : Nat → List Nat → List (List Nat)
  | 0, _ => []
  | fuel + 1, idxs =>
    if idxs.isEmpty then []
    else
      let f := front0On Fm idxs
      if f.isEmpty then [idxs]
      else f :: peelFronts Fm fuel (idxs.filter (fun i => !(f.contains i)))

/-- Modelled from the spec: `NonDominatedSorting().do(F)` (full ranking). -/
def frontsOf (Fm : List (List FVal)) : List (List Nat) :=
  peelFronts Fm Fm.length (List.range Fm.length)

/-- Modelled from the spec: `np.random.choice(front, r, replace=False)` drawn
sequentially from the stream (draw a position, remove it, recurse). -/
def chooseSubset : Nat → List Nat → Nat → List Nat × Nat
  | 0, _, s => ([], s)
  | r + 1, f, s =>
    let p := randBelow f.length s
    let rest := chooseSubset r (f.eraseIdx p.1) p.2
    (f.getD p.1 0 :: rest.1, rest.2)

/-- The selection loop of `MODE._advance` with the stream threaded through. -/
def modeAdvanceRng (popSize : Nat) :
    List (List Nat) → List Nat → Nat → List Nat × Nat
  | [], next, s => (next, s)
  | f :: fs, next, s =>
    if next.length + f.length ≤ popSize then
      modeAdvanceRng popSize fs (next ++ f) s
    else
      let p := chooseSubset (popSize - next.length) f s
      (next ++ p.1, p.2)

/-- One row of `_initialize_infill`:
`np.random.uniform(xl, xu)` per coordinate, drawn sequentially. -/
def initRow (xl xu : List ℚ) (nVar s : Nat) : List ℚ × Nat :=
  (List.range nVar).foldl (fun st k =>
      let pu := randUnit st.2
      (st.1 ++ [xl.getD k 0 + pu.1 * (xu.getD k 0 - xl.getD k 0)], pu.2))
    ([], s)

/-- Embeds `MODE._initialize_infill`: a `(pop_size, n_var)` uniform sample
within bounds, drawn sequentially from the stream. -/
def initPop (xl xu : List ℚ) (popSize nVar s : Nat) : List (List ℚ) × Nat :=
  (List.range popSize).foldl (fun st _ =>
      let pr := initRow xl xu nVar st.2
      (st.1 ++ [pr.1], pr.2))
    ([], s)

/-- One MODE generation of the optimization driver (spec §4.4): variation,
evaluation of the offspring by the problem `P`, merge with the parents, and
survival selection; the PRNG state is threaded through sequentially. -/
def genStep (P : List ℚ → List ℚ) (F CR : ℚ) (xl xu : List ℚ)
    (popSize nVar : Nat) (st : List (List ℚ) × Nat) : List (List ℚ) × Nat :=
  let poff := modeInfillRng st.1 F CR xl xu popSize nVar st.2
  let pool := st.1 ++ poff.1
  let Fm := pool.map (fun x => (P x).map FVal.fin)
  let psel := modeAdvanceRng popSize (frontsOf Fm) [] poff.2
  (psel.1.map (fun t => pool.getD t []), psel.2)

/-- The driver's `Uninitialized → Initialized` transition: sample and keep
the post-sampling stream state. -/
def initState (xl xu : List ℚ) (popSize nVar seed : Nat) : List (List ℚ) × Nat :=
  initPop xl xu popSize nVar seed

/-- The driver's state machine (spec §4.4): `DriverRun ... g st` holds when a
run from the given seed and problem reaches state `st` (population of decision
vectors plus stream state) after `g` generations. -/
inductive DriverRun (P : List ℚ → List ℚ) (F CR : ℚ) (xl xu : List ℚ)
    (popSize nVar seed : Nat) : Nat → List (List ℚ) × Nat → Prop where
  | init : DriverRun P F CR xl xu popSize nVar seed 0
      (initState xl xu popSize nVar seed)
  | step {n : Nat} {st : List (List ℚ) × Nat} :
      DriverRun P F CR xl xu popSize nVar seed n st →
      DriverRun P F CR xl xu popSize nVar seed (n + 1)
        (genStep P F CR xl xu popSize nVar st)

/-- Draws of `np.random.random((rows, cols))`: a matrix filled row-major
from the stream. -/
def randMatrix (rows cols s : Nat) : List (List ℚ) × Nat :=
  (List.range rows).foldl (fun st _ =>
      let pr := (List.range cols).foldl (fun st2 _ =>
          let pu := randUnit st2.2
          (st2.1 ++ [pu.1], pu.2)) ([], st.2)
      (st.1 ++ [pr.1], pr.2))
    ([], s)

/-- The state `MOPSO` carries between generations (`self.pop`,
`self.velocities`, `self.pbest`, `self.gbest`), plus the stream position. -/
structure MopsoState where
  pop : List Cand
  velocities : List (List ℚ)
  pbest : List Cand
  gbest : Cand
  rng : Nat
  deriving DecidableEq

/-- `MOPSO._infill` with the stream threaded:
`r1, r2 = np.random.random((2, self.pop_size, self.problem.n_var))` consumes
the `r1` matrix then the `r2` matrix row-major, after which the velocity and
position updates `mopsoVelUpdate` / `mopsoInfill` are applied. -/
def mopsoInfillRng (w c1 c2 : ℚ) (xl xu : List ℚ) (vel X pbX : List (List ℚ))
    (gbX : List ℚ) (popSize nVar s : Nat) :
    (List (List ℚ) × List (List ℚ)) × Nat :=
  let pr1 := randMatrix popSize nVar s
  let pr2 := randMatrix popSize nVar pr1.2
  ((mopsoInfill w c1 c2 xl xu vel X pbX gbX pr1.1 pr2.1 popSize nVar,
    mopsoVelUpdate w c1 c2 vel X pbX gbX pr1.1 pr2.1 popSize nVar), pr2.2)

/-- `MOPSO._advance` with the stream threaded: update the personal bests,
then draw `np.random.randint(len(non_dominated))` for the global-best
reselection (the draw is consumed only under the `len(non_dominated) > 0`
guard, as in the source). -/
def mopsoAdvanceRng (pop pbest : List Cand) (gbest : Cand) (s : Nat) :
    (List Cand × Cand) × Nat :=
  let pb := updatePbest pop pbest
  let nd := front0 (pb.map Cand.F)
  if 0 < nd.length then
    let p := randBelow nd.length s
    ((pb, pb.getD (nd.getD p.1 0) gbest), p.2)
  else
    ((pb, gbest), s)

/-- One MOPSO generation of the optimization driver (spec §4.4): variation
with the `r1`/`r2` draws from the stream, evaluation of the offspring by the
problem `P`, then the personal/global-best update with its `randint` draw. -/
def mopsoGenStep (P : List ℚ → List ℚ) (w c1 c2 : ℚ) (xl xu : List ℚ)
    (popSize nVar : Nat) (st : MopsoState) : MopsoState :=
  let pin := mopsoInfillRng w c1 c2 xl xu st.velocities (st.pop.map Cand.X)
    (st.pbest.map Cand.X) st.gbest.X popSize nVar st.rng
  let newPop := pin.1.1.map (fun x => Cand.mk x ((P x).map FVal.fin))
  let padv := mopsoAdvanceRng newPop st.pbest st.gbest pin.2
  ⟨newPop, pin.1.2, padv.1.1, padv.1.2, padv.2⟩

/-- `MOPSO._initialize_infill`, evaluation, and `_initialize_advance` with
the stream threaded: uniform sample within bounds, zero velocities, personal
bests a copy of the population, global best `self.pop[np.random.randint(self.pop_size)]`. -/
def mopsoInitState (P : List ℚ → List ℚ) (xl xu : List ℚ)
    (popSize nVar seed : Nat) : MopsoState :=
  let pxs := initPop xl xu popSize nVar seed
  let pop0 := pxs.1.map (fun x => Cand.mk x ((P x).map FVal.fin))
  let pg := randBelow popSize pxs.2
  ⟨pop0, List.replicate popSize (List.replicate nVar (0 : ℚ)), pop0,
    pop0.getD pg.1 ⟨[], []⟩, pg.2⟩

/-- The MOPSO driver's state machine (spec §4.4), analogous to `DriverRun`:
`MopsoRun ... g st` holds when a run from the given seed and problem reaches
state `st` after `g` generations. -/
inductive MopsoRun (P : List ℚ → List ℚ) (w c1 c2 : ℚ) (xl xu : List ℚ)
    (popSize nVar seed : Nat) : Nat → MopsoState → Prop where
  | init : MopsoRun P w c1 c2 xl xu popSize nVar seed 0
      (mopsoInitState P xl xu popSize nVar seed)
  | step {n : Nat} {st : MopsoState} :
      MopsoRun P w c1 c2 xl xu popSize nVar seed n st →
      MopsoRun P w c1 c2 xl xu popSize nVar seed (n + 1)
        (mopsoGenStep P w c1 c2 xl xu popSize nVar st)

/-! ### Claim theorems -/

/-- Claim C1: for every merged parent+offspring pool ranked into
duplicate-free, pairwise-disjoint dominance fronts, the selection loop of
`MODE._advance` never returns more than `pop_size` indices and returns
exactly `pop_size` whenever the pool holds at least `pop_size` members; it
admits whole fronts in rank order while the running total stays at or below
`pop_size`, truncates the first overflowing front by a without-replacement
draw of exactly `pop_size - admitted` members, and the result has no
duplicate indices. -/
theorem C1_survival_selection_exact (popSize : Nat)
    (sel : List Nat → Nat → List Nat) (fronts : List (List Nat))
    (hsel : selOK sel) (hnd : ∀ f ∈ fronts, f.Nodup)
    (hdisj : List.Pairwise (fun f g => ∀ x ∈ f, x ∉ g) fronts) :
    (modeAdvance popSize sel fronts []).length ≤ popSize ∧
    (popSize ≤ (fronts.map List.length).sum →
      (modeAdvance popSize sel fronts []).length = popSize) ∧
    (modeAdvance popSize sel fronts []).Nodup ∧
    (∃ k rest, k ≤ fronts.length ∧
      modeAdvance popSize sel fronts [] = (fronts.take k).flatten ++ rest ∧
      (rest = [] ∨ ∀ x ∈ rest, x ∈ fronts.getD k [])) := by
  refine ⟨modeAdvance_length_le hsel fronts [] hnd (Nat.zero_le _),
    fun hs => modeAdvance_length_eq hsel fronts [] hnd (Nat.zero_le _)
      (by simpa using hs),
    modeAdvance_nodup hsel fronts [] hnd hdisj List.nodup_nil
      (fun f _ x _ => List.not_mem_nil x) (Nat.zero_le _), ?_⟩
  rcases modeAdvance_structure hsel fronts [] hnd (Nat.zero_le _)
    with ⟨k, rest, hk, heq, hr⟩
  exact ⟨k, rest, hk, by simpa using heq, hr⟩

/-- Witness for C1: pool of five indices in three fronts, target size 3. -/
theorem C1_survival_selection_exact_witness :
    (modeAdvance 3 (fun f r => f.take r) [[0, 1], [2, 3], [4]] []).length = 3 ∧
    (modeAdvance 3 (fun f r => f.take r) [[0, 1], [2, 3], [4]] []).Nodup := by
  have hsel : selOK (fun f r => f.take r) := by
    intro f r hnodup hr
    refine ⟨by rw [List.length_take]; omega,
      hnodup.sublist (List.take_sublist r f),
      fun x hx => List.mem_of_mem_take hx⟩
  have h := C1_survival_selection_exact 3 (fun f r => f.take r)
    [[0, 1], [2, 3], [4]] hsel (by decide) (by decide)
  exact ⟨h.2.1 (by decide), h.2.2.1⟩

lemma crossRow_length (X : List (List ℚ)) (CR : ℚ) (i j : Nat) (u : Nat → ℚ)
    (v : List ℚ) (nVar : Nat) : (crossRow X CR i j u v nVar).length = nVar := by
  simp [crossRow]

lemma clipRow_getD (xl xu row : List ℚ) {k : Nat} (hk : k < row.length) :
    (clipRow xl xu row).getD k 0 =
      clip (xl.getD k 0) (xu.getD k 0) (row.getD k 0) := by
  rw [clipRow, getD_map_range _ 0 hk]

lemma crossRow_getD (X : List (List ℚ)) (CR : ℚ) (i j : Nat) (u : Nat → ℚ)
    (v : List ℚ) {nVar k : Nat} (hk : k < nVar) :
    (crossRow X CR i j u v nVar).getD k 0 =
      if u k < CR ∨ k = j then v.getD k 0 else (X.getD i []).getD k 0 := by
  rw [crossRow, getD_map_range _ 0 hk]

lemma vTrial_getD (X : List (List ℚ)) (F : ℚ) (a b c : Nat) {nVar k : Nat}
    (hk : k < nVar) :
    (vTrial X F a b c nVar).getD k 0 =
      (X.getD a []).getD k 0 + F * ((X.getD b []).getD k 0 - (X.getD c []).getD k 0) := by
  rw [vTrial, getD_map_range _ 0 hk]

lemma modeInfill_getD (X : List (List ℚ)) (F CR : ℚ) (xl xu : List ℚ)
    (abc : Nat → Nat × Nat × Nat) (jdim : Nat → Nat) (u : Nat → Nat → ℚ)
    {popSize nVar i : Nat} (hi : i < popSize) :
    (modeInfill X F CR xl xu abc jdim u popSize nVar).getD i [] =
      clipRow xl xu
        (crossRow X CR i (jdim i) (u i)
          (vTrial X F (abc i).1 (abc i).2.1 (abc i).2.2 nVar) nVar) := by
  rw [modeInfill, getD_map_range _ [] hi]

/-- Claim C2: the DE variation step of `MODE._infill`.  Under the support of
the numpy draws (`abc i` three pairwise-distinct indices below `pop_size`,
`jdim i` below `n_var`), every offspring entry is the clipped binomial
crossover of the trial vector `v = X[a] + F*(X[b] - X[c])` with the target
row: dimension `k` takes `v[k]` iff the per-dimension draw is below `CR` or
`k` is the guaranteed dimension; the donor triple is pairwise distinct; and
the draw does not exclude the target index — a triple with first donor equal
to the target is in the support whenever `pop_size ≥ 3`. -/
theorem C2_de_variation (X : List (List ℚ)) (F CR : ℚ) (xl xu : List ℚ)
    (abc : Nat → Nat × Nat × Nat) (jdim : Nat → Nat) (u : Nat → Nat → ℚ)
    (popSize nVar : Nat)
    (habc : ∀ i, i < popSize → choiceOK popSize (abc i))
    (hj : ∀ i, i < popSize → jdim i < nVar) :
    (∀ i k, i < popSize → k < nVar →
      ((modeInfill X F CR xl xu abc jdim u popSize nVar).getD i []).getD k 0 =
        clip (xl.getD k 0) (xu.getD k 0)
          (if u i k < CR ∨ k = jdim i then
            (X.getD (abc i).1 []).getD k 0 +
              F * ((X.getD (abc i).2.1 []).getD k 0 - (X.getD (abc i).2.2 []).getD k 0)
          else (X.getD i []).getD k 0)) ∧
    (∀ i, i < popSize →
      (abc i).1 ≠ (abc i).2.1 ∧ (abc i).1 ≠ (abc i).2.2 ∧
        (abc i).2.1 ≠ (abc i).2.2) ∧
    (∀ i, i < popSize → 3 ≤ popSize → ∃ t, choiceOK popSize t ∧ t.1 = i) := by
  refine ⟨?_, ?_, ?_⟩
  · intro i k hi hk
    rw [modeInfill_getD X F CR xl xu abc jdim u hi]
    rw [clipRow_getD xl xu _ (by rw [crossRow_length]; exact hk)]
    rw [crossRow_getD X CR i (jdim i) (u i) _ hk]
    by_cases hcond : u i k < CR ∨ k = jdim i
    · rw [if_pos hcond, if_pos hcond, vTrial_getD X F _ _ _ hk]
    · rw [if_neg hcond, if_neg hcond]
  · intro i hi
    rcases habc i hi with ⟨_, _, _, h4, h5, h6⟩
    exact ⟨h4, h5, h6⟩
  · intro i hi h3
    by_cases h0 : i = 0
    · subst h0
      exact ⟨(0, 1, 2), by simp only [choiceOK]; omega, rfl⟩
    by_cases h1 : i = 1
    · subst h1
      exact ⟨(1, 0, 2), by simp only [choiceOK]; omega, rfl⟩
    · exact ⟨(i, 0, 1), by simp only [choiceOK]; omega, rfl⟩

/-- Witness for C2: three one-dimensional members, donor triple (0,1,2),
guaranteed dimension 0, crossover draw 0 < CR, so the trial value
`0 + (1/2)*(1 - 2) = -1/2` is taken and clipped up to the lower bound 0. -/
theorem C2_de_variation_witness :
    ((modeInfill [[0], [1], [2]] (1/2) (1/2) [0] [10]
        (fun _ => (0, 1, 2)) (fun _ => 0) (fun _ _ => 0) 3 1).getD 0 []).getD 0 0 = 0 ∧
    (∃ t, choiceOK 3 t ∧ t.1 = 0) := by
  have h := C2_de_variation [[0], [1], [2]] (1/2) (1/2) [0] [10]
    (fun _ => (0, 1, 2)) (fun _ => 0) (fun _ _ => 0) 3 1
    (fun _ _ => (by decide : choiceOK 3 (0, 1, 2)))
    (fun _ _ => (by decide : (0 : Nat) < 1))
  refine ⟨?_, h.2.2 0 (by omega) (by omega)⟩
  rw [h.1 0 0 (by omega) (by omega)]
  norm_num [clip]

lemma mopsoVelUpdate_getD (w c1 c2 : ℚ) (vel X pbX : List (List ℚ))
    (gbX : List ℚ) (r1 r2 : List (List ℚ)) {popSize nVar i k : Nat}
    (hi : i < popSize) (hk : k < nVar) :
    ((mopsoVelUpdate w c1 c2 vel X pbX gbX r1 r2 popSize nVar).getD i []).getD k 0 =
      w * ((vel.getD i []).getD k 0) +
        c1 * ((r1.getD i []).getD k 0) *
          ((pbX.getD i []).getD k 0 - (X.getD i []).getD k 0) +
        c2 * ((r2.getD i []).getD k 0) *
          (gbX.getD k 0 - (X.getD i []).getD k 0) := by
  rw [mopsoVelUpdate, getD_map_range _ [] hi, getD_map_range _ 0 hk]

lemma mopsoInfill_getD (w c1 c2 : ℚ) (xl xu : List ℚ) (vel X pbX : List (List ℚ))
    (gbX : List ℚ) (r1 r2 : List (List ℚ)) {popSize nVar i k : Nat}
    (hi : i < popSize) (hk : k < nVar) :
    ((mopsoInfill w c1 c2 xl xu vel X pbX gbX r1 r2 popSize nVar).getD i []).getD k 0 =
      clip (xl.getD k 0) (xu.getD k 0)
        ((X.getD i []).getD k 0 +
          (((mopsoVelUpdate w c1 c2 vel X pbX gbX r1 r2 popSize nVar).getD i []).getD k 0)) := by
  rw [mopsoInfill, getD_map_range _ [] hi, getD_map_range _ 0 hk]

/-- Claim C3: each generation, `MOPSO._infill` updates every member's velocity
to `w*velocity + c1*r1*(personal_best - position) + c2*r2*(global_best - position)`
with per-coordinate draws `r1, r2` in `[0,1)` and fixed scalars `w, c1, c2`,
and the new position is `position + velocity` clamped per-coordinate into
`[xl, xu]`. -/
theorem C3_pso_update (w c1 c2 : ℚ) (xl xu : List ℚ)
    (vel X pbX : List (List ℚ)) (gbX : List ℚ) (r1 r2 : List (List ℚ))
    (popSize nVar : Nat)
    (hr1 : ∀ i k, i < popSize → k < nVar →
      0 ≤ (r1.getD i []).getD k 0 ∧ (r1.getD i []).getD k 0 < 1)
    (hr2 : ∀ i k, i < popSize → k < nVar →
      0 ≤ (r2.getD i []).getD k 0 ∧ (r2.getD i []).getD k 0 < 1) :
    ∀ i k, i < popSize → k < nVar →
      ((mopsoVelUpdate w c1 c2 vel X pbX gbX r1 r2 popSize nVar).getD i []).getD k 0 =
        w * ((vel.getD i []).getD k 0) +
          c1 * ((r1.getD i []).getD k 0) *
            ((pbX.getD i []).getD k 0 - (X.getD i []).getD k 0) +
          c2 * ((r2.getD i []).getD k 0) *
            (gbX.getD k 0 - (X.getD i []).getD k 0) ∧
      ((mopsoInfill w c1 c2 xl xu vel X pbX gbX r1 r2 popSize nVar).getD i []).getD k 0 =
        clip (xl.getD k 0) (xu.getD k 0)
          ((X.getD i []).getD k 0 +
            (((mopsoVelUpdate w c1 c2 vel X pbX gbX r1 r2 popSize nVar).getD i []).getD k 0)) := by
  intro i k hi hk
  exact ⟨mopsoVelUpdate_getD w c1 c2 vel X pbX gbX r1 r2 hi hk,
    mopsoInfill_getD w c1 c2 xl xu vel X pbX gbX r1 r2 hi hk⟩

/-- Witness for C3: one member, one dimension, all data zero except the
personal best, draw 1/2: velocity `0.9*0 + 2*(1/2)*(1-0) + 2*(1/2)*(0-0) = 1`,
position `0 + 1` clipped into `[0, 5]` is `1`. -/
theorem C3_pso_update_witness :
    ((mopsoVelUpdate (9/10) 2 2 [[0]] [[0]] [[1]] [0] [[1/2]] [[1/2]] 1 1).getD 0 []).getD 0 0 = 1 ∧
    ((mopsoInfill (9/10) 2 2 [0] [5] [[0]] [[0]] [[1]] [0] [[1/2]] [[1/2]] 1 1).getD 0 []).getD 0 0 = 1 := by
  have h := C3_pso_update (9/10) 2 2 [0] [5] [[0]] [[0]] [[1]] [0] [[1/2]] [[1/2]] 1 1
    (by intro i k hi hk; interval_cases i; interval_cases k; norm_num)
    (by intro i k hi hk; interval_cases i; interval_cases k; norm_num)
    0 0 (by omega) (by omega)
  constructor
  · rw [h.1]; norm_num
  · rw [h.2, h.1]; norm_num [clip]

/-- Claim C6: after either variation operator (`MOPSO._infill` or
`MODE._infill`), every coordinate of every offspring lies within the
per-dimension bounds `[xl, xu]`; bounds violations are corrected locally by
the final `np.clip` and never surfaced as errors (both operators are total
functions applying `clip`). -/
theorem C6_clamping_invariant (w c1 c2 F CR : ℚ) (xl xu : List ℚ)
    (vel X pbX : List (List ℚ)) (gbX : List ℚ) (r1 r2 : List (List ℚ))
    (abc : Nat → Nat × Nat × Nat) (jdim : Nat → Nat) (u : Nat → Nat → ℚ)
    (popSize nVar : Nat)
    (hb : ∀ k, k < nVar → xl.getD k 0 ≤ xu.getD k 0) :
    ∀ i k, i < popSize → k < nVar →
      (xl.getD k 0 ≤
          ((mopsoInfill w c1 c2 xl xu vel X pbX gbX r1 r2 popSize nVar).getD i []).getD k 0 ∧
        ((mopsoInfill w c1 c2 xl xu vel X pbX gbX r1 r2 popSize nVar).getD i []).getD k 0 ≤
          xu.getD k 0) ∧
      (xl.getD k 0 ≤
          ((modeInfill X F CR xl xu abc jdim u popSize nVar).getD i []).getD k 0 ∧
        ((modeInfill X F CR xl xu abc jdim u popSize nVar).getD i []).getD k 0 ≤
          xu.getD k 0) := by
  intro i k hi hk
  constructor
  · rw [mopsoInfill_getD w c1 c2 xl xu vel X pbX gbX r1 r2 hi hk]
    exact clip_bounds (hb k hk)
  · rw [modeInfill_getD X F CR xl xu abc jdim u hi]
    rw [clipRow_getD xl xu _ (by rw [crossRow_length]; exact hk)]
    exact clip_bounds (hb k hk)

/-- Witness for C6: the MOPSO offspring of the C3 witness and the MODE
offspring of the C2 witness both land inside the bounds `[0, 5]`. -/
theorem C6_clamping_invariant_witness :
    ((0:ℚ) ≤ ((mopsoInfill (9/10) 2 2 [0] [5] [[0]] [[10]] [[1]] [0] [[1/2]] [[1/2]] 1 1).getD 0 []).getD 0 0 ∧
      ((mopsoInfill (9/10) 2 2 [0] [5] [[0]] [[10]] [[1]] [0] [[1/2]] [[1/2]] 1 1).getD 0 []).getD 0 0 ≤ 5) ∧
    ((0:ℚ) ≤ ((modeInfill [[10]] 1 (1/2) [0] [5] (fun _ => (0, 0, 0)) (fun _ => 0) (fun _ _ => 0) 1 1).getD 0 []).getD 0 0 ∧
      ((modeInfill [[10]] 1 (1/2) [0] [5] (fun _ => (0, 0, 0)) (fun _ => 0) (fun _ _ => 0) 1 1).getD 0 []).getD 0 0 ≤ 5) :=
  C6_clamping_invariant (9/10) 2 2 1 (1/2) [0] [5] [[0]] [[10]] [[1]] [0]
    [[1/2]] [[1/2]] (fun _ => (0, 0, 0)) (fun _ => 0) (fun _ _ => 0) 1 1
    (fun k hk => by interval_cases k; norm_num) 0 0 (by omega) (by omega)

/-- The personal bests after a whole run: `MOPSO._advance` folded over the
successive evaluated generations. -/
def pbestRun (pbest0 : List Cand) (hist : List (List Cand)) : List Cand :=
  hist.foldl (fun pb pop => updatePbest pop pb) pbest0

lemma dominate_ne {a b : Cand} (h : dominate a b = true) : a ≠ b := by
  intro heq
  rw [heq, dominate, dominateF_self] at h
  exact Bool.false_ne_true h

lemma updatePbest_change_dominates {pop pbest : List Cand} {i : Nat} (d : Cand)
    (hlen : pop.length = pbest.length) (hi : i < pbest.length)
    (hne : (updatePbest pop pbest).getD i d ≠ pbest.getD i d) :
    dominate ((updatePbest pop pbest).getD i d) (pbest.getD i d) = true := by
  rw [updatePbest_getD d hlen hi] at hne ⊢
  by_cases hdom : dominate (pop.getD i d) (pbest.getD i d)
  · rw [if_pos hdom]
    exact hdom
  · rw [if_neg hdom] at hne
    exact absurd rfl hne

lemma pbestRun_length (pbest0 : List Cand) :
    ∀ hist : List (List Cand), (∀ p ∈ hist, p.length = pbest0.length) →
      (pbestRun pbest0 hist).length = pbest0.length := by
  intro hist
  induction hist generalizing pbest0 with
  | nil => intro _; rfl
  | cons p hist ih =>
    intro hp
    have hlen : (updatePbest p pbest0).length = pbest0.length := by
      rw [updatePbest_length, hp p (List.mem_cons_self p hist)]
      omega
    have := ih (updatePbest p pbest0)
      (fun q hq => by rw [hlen]; exact hp q (List.mem_cons_of_mem p hq))
    rw [pbestRun] at this ⊢
    rw [List.foldl_cons, this, hlen]

/-- Claim C5: in `MOPSO._advance` the personal best of member `i` is replaced
by the newly evaluated candidate iff the new candidate strictly
Pareto-dominates the old personal best; consequently, over a whole run, a
member's personal best only ever changes to a candidate that dominates its
previous value. -/
theorem C5_pbest_monotone (pop pbest : List Cand) (d : Cand)
    (hlen : pop.length = pbest.length) :
    (∀ i, i < pbest.length →
      ((updatePbest pop pbest).getD i d =
        if dominate (pop.getD i d) (pbest.getD i d) then pop.getD i d
        else pbest.getD i d) ∧
      ((updatePbest pop pbest).getD i d ≠ pbest.getD i d →
        dominate ((updatePbest pop pbest).getD i d) (pbest.getD i d) = true) ∧
      (dominate (pop.getD i d) (pbest.getD i d) = true →
        (updatePbest pop pbest).getD i d ≠ pbest.getD i d)) ∧
    (∀ hist : List (List Cand), (∀ p ∈ hist, p.length = pbest.length) →
      ∀ i, i < pbest.length →
        (pbestRun pbest (hist ++ [pop])).getD i d ≠ (pbestRun pbest hist).getD i d →
        dominate ((pbestRun pbest (hist ++ [pop])).getD i d)
          ((pbestRun pbest hist).getD i d) = true) := by
  constructor
  · intro i hi
    refine ⟨updatePbest_getD d hlen hi, updatePbest_change_dominates d hlen hi, ?_⟩
    intro hdom heq
    rw [updatePbest_getD d hlen hi, if_pos hdom] at heq
    exact dominate_ne hdom heq
  · intro hist hp i hi
    have hrunlen : (pbestRun pbest hist).length = pbest.length :=
      pbestRun_length pbest hist hp
    have happ : pbestRun pbest (hist ++ [pop]) =
        updatePbest pop (pbestRun pbest hist) := by
      rw [pbestRun, pbestRun, List.foldl_append, List.foldl_cons, List.foldl_nil]
    rw [happ]
    exact updatePbest_change_dominates d (by omega) (by omega)

/-- Witness for C5: the new candidate `([0], [0])` dominates the old personal
best `([1], [1])`, so the personal best is replaced; the run-level fold over
one generation agrees. -/
theorem C5_pbest_monotone_witness :
    (updatePbest [⟨[0], [FVal.fin 0]⟩] [⟨[1], [FVal.fin 1]⟩]).getD 0 ⟨[], []⟩ =
      ⟨[0], [FVal.fin 0]⟩ ∧
    dominate ((pbestRun [⟨[1], [FVal.fin 1]⟩] [[⟨[0], [FVal.fin 0]⟩]]).getD 0 ⟨[], []⟩)
      ((pbestRun [⟨[1], [FVal.fin 1]⟩] []).getD 0 ⟨[], []⟩) = true := by
  have h := C5_pbest_monotone [⟨[0], [FVal.fin 0]⟩] [⟨[1], [FVal.fin 1]⟩] ⟨[], []⟩
    (by decide)
  constructor
  · rw [(h.1 0 (by decide)).1]
    decide
  · refine h.2 [] (by intro p hp; exact absurd hp (List.not_mem_nil p)) 0 (by decide) ?_
    decide

lemma mem_updatePbest {pop pbest : List Cand} {c : Cand}
    (hc : c ∈ updatePbest pop pbest) : c ∈ pop ∨ c ∈ pbest := by
  rcases List.mem_iff_getElem.mp hc with ⟨i, hi, hval⟩
  rw [updatePbest_length] at hi
  simp only [updatePbest, List.getElem_zipWith] at hval
  by_cases hdom : dominate pop[i] pbest[i]
  · rw [if_pos hdom] at hval
    exact Or.inl (hval ▸ List.getElem_mem _)
  · rw [if_neg hdom] at hval
    exact Or.inr (hval ▸ List.getElem_mem _)

/-- Claim C4: after the offspring are evaluated and the personal bests
updated, `MOPSO._advance` resamples the global best from the non-dominated
front of the current personal bests: for every `randint` draw the new global
best is a front member, and every front member is reached by some draw (a
uniform random member of that set, not a fitness-maximizing pick). -/
theorem C4_gbest_from_front (pop pbest : List Cand) (gbest : Cand) (m : Nat)
    (hlen : pop.length = pbest.length) (hne : pbest ≠ [])
    (hFp : ∀ c ∈ pop, c.F.length = m) (hFb : ∀ c ∈ pbest, c.F.length = m) :
    (∀ r, ∃ t ∈ front0 ((updatePbest pop pbest).map Cand.F),
      (mopsoAdvance pop pbest gbest r).2 =
        (updatePbest pop pbest).getD t gbest) ∧
    (∀ t ∈ front0 ((updatePbest pop pbest).map Cand.F),
      ∃ r, (mopsoAdvance pop pbest gbest r).2 =
        (updatePbest pop pbest).getD t gbest) := by
  have hpblen : (updatePbest pop pbest).length = pbest.length := by
    rw [updatePbest_length]
    omega
  have hpbne : updatePbest pop pbest ≠ [] := by
    intro h
    apply hne
    apply List.eq_nil_of_length_eq_zero
    rw [← hpblen, h]
    rfl
  have hrows : ∀ row ∈ (updatePbest pop pbest).map Cand.F, row.length = m := by
    intro row hrow
    rcases List.mem_map.mp hrow with ⟨c, hc, rfl⟩
    rcases mem_updatePbest hc with hcp | hcb
    · exact hFp c hcp
    · exact hFb c hcb
  have hmapne : (updatePbest pop pbest).map Cand.F ≠ [] := by
    intro h
    exact hpbne (List.map_eq_nil_iff.mp h)
  have hndne : front0 ((updatePbest pop pbest).map Cand.F) ≠ [] :=
    front0_ne_nil (m := m) _ hmapne hrows
  have hndpos : 0 < (front0 ((updatePbest pop pbest).map Cand.F)).length :=
    List.length_pos.mpr hndne
  constructor
  · intro r
    have hmod : r % (front0 ((updatePbest pop pbest).map Cand.F)).length <
        (front0 ((updatePbest pop pbest).map Cand.F)).length :=
      Nat.mod_lt r hndpos
    refine ⟨(front0 ((updatePbest pop pbest).map Cand.F)).getD
        (r % (front0 ((updatePbest pop pbest).map Cand.F)).length) 0, ?_, ?_⟩
    · rw [List.getD_eq_getElem _ 0 hmod]
      exact List.getElem_mem _
    · simp only [mopsoAdvance]
      rw [if_pos hndpos]
  · intro t ht
    rcases List.mem_iff_getElem.mp ht with ⟨q, hq, hval⟩
    refine ⟨q, ?_⟩
    simp only [mopsoAdvance]
    rw [if_pos hndpos, Nat.mod_eq_of_lt hq, List.getD_eq_getElem _ 0 hq, hval]

/-- Witness for C4: a two-member swarm where personal best 0 dominates
personal best 1; the resampled global best is a member of the front. -/
theorem C4_gbest_from_front_witness :
    ∃ t ∈ front0 ((updatePbest [⟨[0], [FVal.fin 0]⟩, ⟨[1], [FVal.fin 1]⟩]
        [⟨[0], [FVal.fin 0]⟩, ⟨[1], [FVal.fin 1]⟩]).map Cand.F),
      (mopsoAdvance [⟨[0], [FVal.fin 0]⟩, ⟨[1], [FVal.fin 1]⟩]
          [⟨[0], [FVal.fin 0]⟩, ⟨[1], [FVal.fin 1]⟩] ⟨[], []⟩ 0).2 =
        (updatePbest [⟨[0], [FVal.fin 0]⟩, ⟨[1], [FVal.fin 1]⟩]
          [⟨[0], [FVal.fin 0]⟩, ⟨[1], [FVal.fin 1]⟩]).getD t ⟨[], []⟩ :=
  (C4_gbest_from_front [⟨[0], [FVal.fin 0]⟩, ⟨[1], [FVal.fin 1]⟩]
    [⟨[0], [FVal.fin 0]⟩, ⟨[1], [FVal.fin 1]⟩] ⟨[], []⟩ 1
    (by decide) (by decide) (by decide) (by decide)).1 0

/-- Claim C7 counterexample: at pool `{0, 1}` (one front) with `pop_size = 3`,
`MODE._advance` returns the bare short pool through its one unconditional
return path — embedded as the always-ok result — while the spec-mandated
behavior (`modeAdvanceSignal`, modelled from §4.2/§7) signals the underfilled
outcome distinctly; the two disagree, so no distinct signal exists in the
code. -/
theorem C7_no_underfilled_signal :
    modeAdvance 3 (fun f r => f.take r) [[0, 1]] [] = [0, 1] ∧
    Except.ok (modeAdvance 3 (fun f r => f.take r) [[0, 1]] []) ≠
      modeAdvanceSignal 3 (fun f r => f.take r) [[0, 1]] := by
  refine ⟨by decide, ?_⟩
  intro h
  rw [modeAdvanceSignal, if_pos (by decide)] at h
  exact Except.noConfusion h

/-- Claim C7 (amended): whenever the merged pool given to `MODE._advance` is
smaller than `pop_size`, every front fits and the selection returns all pool
members (short of the target) without padding; the short result is returned
through the same unmarked path as the success case — no distinct underfilled
signal is raised. -/
theorem C7_underfilled_returns_all (popSize : Nat)
    (sel : List Nat → Nat → List Nat) (fronts : List (List Nat))
    (hshort : (fronts.map List.length).sum < popSize) :
    modeAdvance popSize sel fronts [] = fronts.flatten := by
  have h := modeAdvance_all popSize sel fronts [] (by simpa using hshort.le)
  simpa using h

/-- Witness for the amended C7: pool of two indices, target 3, all returned. -/
theorem C7_underfilled_returns_all_witness :
    modeAdvance 3 (fun f r => f.drop r) [[0], [1]] [] = [[0], [1]].flatten :=
  C7_underfilled_returns_all 3 (fun f r => f.drop r) [[0], [1]] (by decide)

/-- Claim C8 counterexample: a candidate whose objective is NaN is *not*
treated as dominated by everything: the finite candidate `[0]` does not
dominate `[NaN]` (all IEEE comparisons with NaN are false), and the NaN
candidate lands in the *first* front of the ranking rather than sorting
last. -/
theorem C8_nan_not_sorted_last :
    dominateF [FVal.fin 0] [FVal.nan] = false ∧
    front0 [[FVal.fin 0], [FVal.nan]] = [0, 1] := by
  decide

/-- Claim C8 (amended): a NaN objective never crashes the run — the IEEE
comparisons in `MOPSO.dominate` and the sorting are total — but the candidate
is treated as incomparable rather than dominated-by-everything: no candidate
dominates it, it dominates no candidate, and it appears in the non-dominated
first front (it sorts first, not last). -/
theorem C8_nan_incomparable (Fm : List (List FVal)) (m i : Nat)
    (hi : i < Fm.length) (hm : ∀ row ∈ Fm, row.length = m)
    (hnan : FVal.nan ∈ Fm.getD i []) :
    (∀ j, j < Fm.length →
      dominateF (Fm.getD j []) (Fm.getD i []) = false ∧
      dominateF (Fm.getD i []) (Fm.getD j []) = false) ∧
    i ∈ front0 Fm := by
  have hilen : (Fm.getD i []).length = m := hm _ (getD_row_mem hi)
  rcases List.mem_iff_getElem.mp hnan with ⟨t, ht, hval⟩
  have htm : t < m := by omega
  have hgetD : (Fm.getD i []).getD t FVal.nan = FVal.nan := by
    rw [List.getD_eq_getElem _ FVal.nan ht, hval]
  have hmain : ∀ j, j < Fm.length →
      dominateF (Fm.getD j []) (Fm.getD i []) = false ∧
      dominateF (Fm.getD i []) (Fm.getD j []) = false := by
    intro j hj
    have hjlen : (Fm.getD j []).length = m := hm _ (getD_row_mem hj)
    constructor
    · by_contra h
      rw [Bool.not_eq_false] at h
      rcases (dominateF_iff hjlen hilen).mp h with ⟨hall, _⟩
      have := hall t htm
      rw [hgetD, fle_nan_right] at this
      exact Bool.false_ne_true this
    · by_contra h
      rw [Bool.not_eq_false] at h
      rcases (dominateF_iff hilen hjlen).mp h with ⟨hall, _⟩
      have := hall t htm
      rw [hgetD, fle_nan_left] at this
      exact Bool.false_ne_true this
  refine ⟨hmain, ?_⟩
  apply mem_front0_iff.mpr
  refine ⟨hi, ?_⟩
  rw [← Bool.not_eq_true]
  intro hdomby
  rcases List.any_eq_true.mp hdomby with ⟨j, hjr, hdj⟩
  rw [(hmain j (List.mem_range.mp hjr)).1] at hdj
  exact Bool.false_ne_true hdj

/-- Witness for the amended C8: in the two-candidate matrix
`[[0], [NaN]]` the NaN candidate is undominated and in front 0. -/
theorem C8_nan_incomparable_witness :
    dominateF ([[FVal.fin 0], [FVal.nan]].getD 0 [])
      ([[FVal.fin 0], [FVal.nan]].getD 1 []) = false ∧
    1 ∈ front0 [[FVal.fin 0], [FVal.nan]] := by
  have h := C8_nan_incomparable [[FVal.fin 0], [FVal.nan]] 1 1
    (by decide) (by decide) (by decide)
  exact ⟨(h.1 0 (by decide)).1, h.2⟩

lemma driverRun_unique (P : List ℚ → List ℚ) (F CR : ℚ) (xl xu : List ℚ)
    (popSize nVar seed : Nat) :
    ∀ (g : Nat) (st1 st2 : List (List ℚ) × Nat),
      DriverRun P F CR xl xu popSize nVar seed g st1 →
      DriverRun P F CR xl xu popSize nVar seed g st2 → st1 = st2 := by
  intro g
  induction g with
  | zero =>
    intro st1 st2 h1 h2
    cases h1
    cases h2
    rfl
  | succ n ih =>
    intro st1 st2 h1 h2
    cases h1 with
    | step h1p =>
      cases h2 with
      | step h2p => rw [ih _ _ h1p h2p]

lemma mopsoRun_unique (P : List ℚ → List ℚ) (w c1 c2 : ℚ) (xl xu : List ℚ)
    (popSize nVar seed : Nat) :
    ∀ (g : Nat) (sp1 sp2 : MopsoState),
      MopsoRun P w c1 c2 xl xu popSize nVar seed g sp1 →
      MopsoRun P w c1 c2 xl xu popSize nVar seed g sp2 → sp1 = sp2 := by
  intro g
  induction g with
  | zero =>
    intro sp1 sp2 h1 h2
    cases h1
    cases h2
    rfl
  | succ n ih =>
    intro sp1 sp2 h1 h2
    cases h1 with
    | step h1p =>
      cases h2 with
      | step h2p => rw [ih _ _ h1p h2p]

/-- Claim C9: two runs of the optimization driver from an identical seed,
identical problem definition, and identical generation count reach identical
final states (hence identical final populations), for the MODE-driven run and
the MOPSO-driven run alike: every random draw — initialization sampling, the
DE donor/crossover draws and survival truncation, the PSO `r1`/`r2` matrices
and the `randint` global-best reselections — is taken from the single
seedable, sequentially-consumed stream threaded through `DriverRun` and
`MopsoRun`. -/
theorem C9_seed_determinism (P : List ℚ → List ℚ) (F CR w c1 c2 : ℚ)
    (xl xu : List ℚ) (popSize nVar seed g : Nat)
    (st1 st2 : List (List ℚ) × Nat) (sp1 sp2 : MopsoState)
    (h1 : DriverRun P F CR xl xu popSize nVar seed g st1)
    (h2 : DriverRun P F CR xl xu popSize nVar seed g st2)
    (h3 : MopsoRun P w c1 c2 xl xu popSize nVar seed g sp1)
    (h4 : MopsoRun P w c1 c2 xl xu popSize nVar seed g sp2) :
    st1 = st2 ∧ sp1 = sp2 :=
  ⟨driverRun_unique P F CR xl xu popSize nVar seed g st1 st2 h1 h2,
    mopsoRun_unique P w c1 c2 xl xu popSize nVar seed g sp1 sp2 h3 h4⟩

/-- Witness for C9: two-generation runs of each driver from seed 7 on a
one-member, one-variable identity problem coincide (the derivations exercise
two generation steps of each state machine), and the runs really consume the
stream — already the initialization draws move the stream position away from
the seed. -/
theorem C9_seed_determinism_witness :
    genStep (fun x => x) (1/2) (1/2) [0] [1] 1 1
        (genStep (fun x => x) (1/2) (1/2) [0] [1] 1 1 (initState [0] [1] 1 1 7)) =
      genStep (fun x => x) (1/2) (1/2) [0] [1] 1 1
        (genStep (fun x => x) (1/2) (1/2) [0] [1] 1 1 (initState [0] [1] 1 1 7)) ∧
    mopsoGenStep (fun x => x) (9/10) 2 2 [0] [1] 1 1
        (mopsoGenStep (fun x => x) (9/10) 2 2 [0] [1] 1 1
          (mopsoInitState (fun x => x) [0] [1] 1 1 7)) =
      mopsoGenStep (fun x => x) (9/10) 2 2 [0] [1] 1 1
        (mopsoGenStep (fun x => x) (9/10) 2 2 [0] [1] 1 1
          (mopsoInitState (fun x => x) [0] [1] 1 1 7)) ∧
    (initState [0] [1] 1 1 7).2 ≠ 7 ∧
    (mopsoInitState (fun x => x) [0] [1] 1 1 7).rng ≠ 7 := by
  have h := C9_seed_determinism (fun x => x) (1/2) (1/2) (9/10) 2 2 [0] [1]
    1 1 7 2 _ _ _ _
    (DriverRun.step (DriverRun.step DriverRun.init))
    (DriverRun.step (DriverRun.step DriverRun.init))
    (MopsoRun.step (MopsoRun.step MopsoRun.init))
    (MopsoRun.step (MopsoRun.step MopsoRun.init))
  exact ⟨h.1, h.2, by decide, by decide⟩

/-- Demonstration candidates for C10: member 0 dominates member 1. -/
def demoCand0 : Cand := ⟨[0], [FVal.fin 0]⟩

/-- The dominated demonstration candidate for C10. -/
def demoCand1 : Cand := ⟨[1], [FVal.fin 1]⟩

/-- The two-member demonstration population for C10. -/
def demoPop : List Cand := [demoCand0, demoCand1]

/-- Claim C10: `MOPSO._initialize_advance` sets every velocity coordinate to
zero, copies the initial population into the personal bests, and draws the
initial global best uniformly from the *entire* population (every member is
reachable by some draw) — so it may be a dominated candidate, as the
demonstration population shows with draw 1, unlike the per-generation
reselection of `MOPSO._advance`, which on the same population always returns
the sole front member `demoCand0`. -/
theorem C10_init_gbest_whole_pop (infills : List Cand) (popSize nVar r : Nat)
    (hlen : infills.length = popSize) (hr : r < popSize) :
    (∀ i k, i < popSize → k < nVar →
      (((mopsoInitAdvance infills popSize nVar r).1.getD i []).getD k 0 = 0)) ∧
    (mopsoInitAdvance infills popSize nVar r).2.1 = infills ∧
    (mopsoInitAdvance infills popSize nVar r).2.2 = infills.getD r ⟨[], []⟩ ∧
    (∀ i, i < popSize → ∃ q, q < popSize ∧
      (mopsoInitAdvance infills popSize nVar q).2.2 = infills.getD i ⟨[], []⟩) ∧
    ((mopsoInitAdvance demoPop 2 1 1).2.2 = demoCand1 ∧
      dominate demoCand0 demoCand1 = true ∧
      front0 (demoPop.map Cand.F) = [0] ∧
      ∀ q, (mopsoAdvance demoPop demoPop demoCand0 q).2 = demoCand0) := by
  refine ⟨?_, rfl, ?_, ?_, ?_, ?_, ?_, ?_⟩
  · intro i k hi hk
    simp only [mopsoInitAdvance]
    rw [List.getD_eq_getElem _ [] (by simpa using hi), List.getElem_replicate,
      List.getD_eq_getElem _ 0 (by simpa using hk), List.getElem_replicate]
  · simp only [mopsoInitAdvance]
    rw [Nat.mod_eq_of_lt hr]
  · intro i hi
    refine ⟨i, hi, ?_⟩
    simp only [mopsoInitAdvance]
    rw [Nat.mod_eq_of_lt hi]
  · decide
  · decide
  · decide
  · intro q
    have hnd : front0 ((updatePbest demoPop demoPop).map Cand.F) = [0] := by
      decide
    simp only [mopsoAdvance, hnd]
    rw [if_pos (by decide)]
    simp only [List.length_singleton, Nat.mod_one]
    decide

/-- Witness for C10: applied to the demonstration population with draw 1,
velocities are zero and the initial global best is the dominated member 1. -/
theorem C10_init_gbest_whole_pop_witness :
    ((mopsoInitAdvance demoPop 2 1 1).1.getD 0 []).getD 0 0 = 0 ∧
    (mopsoInitAdvance demoPop 2 1 1).2.2 = demoPop.getD 1 ⟨[], []⟩ := by
  have h := C10_init_gbest_whole_pop demoPop 2 1 1 (by decide) (by decide)
  exact ⟨h.1 0 0 (by decide) (by decide), h.2.2.1⟩
